import Mathlib

/-!
Verification of the meshmode mesh/face-restriction core.

This file shallowly embeds the two source files

  * meshmode/mesh/__init__.py       (element groups, Mesh, vertex-based connectivity)
  * meshmode/discretization/connection/face.py  (face restriction and boundary connection)

as executable Lean definitions, and proves the frozen specification claims
about them.  Conventions used throughout:

  * numpy float arrays are modelled over ℚ (all arithmetic appearing in the
    verified claims is exact: sums, differences, products and the factor 0.5);
  * a numpy 2-d array is a `List (List ℚ)` of its rows;
  * Python lists used as index-addressed tables are modelled as functions
    `ℕ → List ℕ` together with the length they were allocated with;
  * a Python `set` is modelled as an insertion-ordered duplicate-free list
    (`setUpdate`), or as a `Finset` where only membership and sorting matter;
  * a `pytools.Record` with dynamic field names is modelled as an association
    list from field-name strings to values;
  * fallible constructors (`raise`) are modelled with `Except String`.
-/

/-! ## Small exact linear algebra over ℚ (lists of rows) -/

/-- Dot product of two rational vectors (`np.dot` on 1-d arrays). -/
def dotQ (a b : List ℚ) : ℚ :=
  (List.zipWith (· * ·) a b).sum

/-- Transpose of a matrix given as a list of rows (`.T` in numpy); entries are
read with `getD` (all matrices we build are rectangular). -/
def transposeMat (m : List (List ℚ)) : List (List ℚ) :=
  (List.range (m.getD 0 []).length).map (fun j => m.map (fun row => row.getD j 0))

/-- Matrix product (`np.dot` on 2-d arrays): rows of `a` against columns of `b`. -/
def matMulQ (a b : List (List ℚ)) : List (List ℚ) :=
  a.map (fun arow => (List.range (b.getD 0 []).length).map
    (fun j => dotQ arow (b.map (fun brow => brow.getD j 0))))

/-- Add a vector `b` to every row of `m` (numpy broadcasting `M + b` for
`M : (n, d)`, `b : (d,)`). -/
def addRowVec (m : List (List ℚ)) (b : List ℚ) : List (List ℚ) :=
  m.map (fun row => List.zipWith (· + ·) row b)

/-- Apply the affine map `x ↦ A·x + b` to a single point `x` (a column
vector), `A` given as a list of rows. -/
def faceMapPoint (A : List (List ℚ)) (b x : List ℚ) : List ℚ :=
  List.zipWith (· + ·) (A.map (fun row => dotQ row x)) b

/-! ## SimplexElementGroup face tables

Transcribed from `SimplexElementGroup.face_vertex_indices` and
`SimplexElementGroup.vertex_unit_coordinates` in `meshmode/mesh/__init__.py`;
`none` models the `NotImplementedError` raised for other dimensions. -/

/-- `SimplexElementGroup.face_vertex_indices()`: which local vertices bound
each local face, listed in the source's fixed order. -/
def face_vertex_indices (dim : ℕ) : Option (List (List ℕ)) :=
  match dim with
  | 1 => some [[0, 1]]
  | 2 => some [[0, 1], [2, 0], [1, 2]]
  | 3 => some [[0, 1, 2], [0, 3, 1], [0, 2, 3], [1, 3, 2]]
  | _ => none

/-- `SimplexElementGroup.vertex_unit_coordinates()`: reference-element
coordinates of the local vertices (rows). -/
def vertex_unit_coordinates (dim : ℕ) : Option (List (List ℚ)) :=
  match dim with
  | 1 => some [[-1], [1]]
  | 2 => some [[-1, -1], [1, -1], [-1, 1]]
  | 3 => some [[-1, -1, -1], [1, -1, -1], [-1, 1, -1], [-1, -1, 1]]
  | _ => none

/-- Number of local faces of a `dim`-simplex (length of the face table). -/
def numFaces (dim : ℕ) : ℕ :=
  ((face_vertex_indices dim).getD []).length

/-- `loc_face_vertices = list(grp_face_vertex_indices[face_id])` in
`make_face_restriction`. -/
def loc_face_vertices (dim face_id : ℕ) : List ℕ :=
  ((face_vertex_indices dim).getD []).getD face_id []

/-- Row `i` of `vertex_unit_coordinates`. -/
def vucRow (dim i : ℕ) : List ℚ :=
  ((vertex_unit_coordinates dim).getD []).getD i []

/-- `face_vertex_unit_coordinates = grp_vertex_unit_coordinates[loc_face_vertices]`
in `make_face_restriction`. -/
def face_vertex_unit_coordinates (dim face_id : ℕ) : List (List ℚ) :=
  (loc_face_vertices dim face_id).map (fun i => vucRow dim i)

/-- `b = face_vertex_unit_coordinates[0]` (`make_face_restriction`, line 250). -/
def faceB (dim face_id : ℕ) : List ℚ :=
  (face_vertex_unit_coordinates dim face_id).getD 0 []

/-- `A = (face_vertex_unit_coordinates[1:] - face_vertex_unit_coordinates[0]).T`
(`make_face_restriction`, lines 251-253), as a list of rows. -/
def faceA (dim face_id : ℕ) : List (List ℚ) :=
  transposeMat (((face_vertex_unit_coordinates dim face_id).drop 1).map
    (fun r => List.zipWith (· - ·) r (faceB dim face_id)))

/-- Corner `k` of the `[0,1]`-scaled reference face of dimension `fdim`:
`k = 0` is the origin, `k = i + 1` is the `i`-th unit basis vector. -/
def unitCorner (fdim k : ℕ) : List ℚ :=
  (List.range fdim).map (fun j => if k = j + 1 then 1 else 0)

/-- `k`-th entry of the face's vertex list. -/
def locFaceVert (dim face_id k : ℕ) : ℕ :=
  (loc_face_vertices dim face_id).getD k 0

/-! ## Claim C1 -/

/-- Claim C1: for every simplex dimension handled by the source (1, 2, 3),
every local face id and every corner index `k` of the `[0,1]`-scaled
reference face (corner 0 = origin, corner `k` = `k`-th unit basis vector),
the affine map `x ↦ A·x + b` built by `make_face_restriction` sends corner
`k` exactly onto the reference-element coordinates of the face's `k`-th
listed vertex, in the order fixed by `face_vertex_indices()` and
`vertex_unit_coordinates()`. -/
theorem make_face_restriction_affine_corners (dim : ℕ)
    (hdim : dim = 1 ∨ dim = 2 ∨ dim = 3) :
    ∀ f < numFaces dim, ∀ k < dim,
      faceMapPoint (faceA dim f) (faceB dim f) (unitCorner (dim - 1) k)
        = vucRow dim (locFaceVert dim f k) := by
  rcases hdim with h | h | h <;> subst h <;>
    (intro f hf k hk;
     simp only [numFaces, face_vertex_indices, Option.getD_some, List.length_cons,
       List.length_nil] at hf;
     interval_cases f <;> interval_cases k <;>
       norm_num [faceMapPoint, faceA, faceB, face_vertex_unit_coordinates, vucRow,
         loc_face_vertices, locFaceVert, face_vertex_indices, vertex_unit_coordinates,
         transposeMat, dotQ, unitCorner, List.range_succ])

/-- Witness for C1 at `dim = 3`, face 3, corner 2. -/
theorem make_face_restriction_affine_corners_witness :
    faceMapPoint (faceA 3 3) (faceB 3 3) (unitCorner 2 2)
      = vucRow 3 (locFaceVert 3 3 2) :=
  make_face_restriction_affine_corners 3 (Or.inr (Or.inr rfl)) 3 (by decide)
    2 (by decide)

/-! ## Claim C2: the two `(A,b)`-evaluation sites compute the same points

`_build_boundary_connection` (face.py lines 59-60) computes
`bdry_unit_nodes_01 = (bdry_grp.unit_nodes + 1)*0.5` and
`result_unit_nodes = (np.dot(data.A, bdry_unit_nodes_01).T + data.b).T`
from the boundary discretization group's unit nodes; `make_face_restriction`
(lines 207-208, 255) computes `bdry_unit_nodes_01 = (bdry_unit_nodes + 1)*0.5`
and `face_unit_nodes = (np.dot(A, bdry_unit_nodes_01).T + b).T` from the
canonical face unit nodes.  Each site is transcribed separately below.
The `Discretization`/`group_factory` machinery is not part of the sources;
following the spec, the boundary discretization group's unit nodes are the
canonical face unit nodes, which enters the claim theorem as the hypothesis
that the two node sets agree. -/

/-- `result_unit_nodes` as computed in `_build_boundary_connection`
(face.py lines 59-60), from the boundary group's unit nodes
(shape `(dim-1, n)`, rows) and the batch's `(A, b)`. -/
def result_unit_nodes (A : List (List ℚ)) (b : List ℚ)
    (bdry_grp_unit_nodes : List (List ℚ)) : List (List ℚ) :=
  let bdry_unit_nodes_01 :=
    bdry_grp_unit_nodes.map (fun row => row.map (fun x => (x + 1) * (1 / 2)))
  transposeMat (addRowVec (transposeMat (matMulQ A bdry_unit_nodes_01)) b)

/-- `face_unit_nodes` as computed in `make_face_restriction`
(face.py lines 207-208 and 255), from the canonical boundary unit nodes and
the face's `(A, b)`. -/
def face_unit_nodes (A : List (List ℚ)) (b : List ℚ)
    (bdry_unit_nodes : List (List ℚ)) : List (List ℚ) :=
  let bdry_unit_nodes_01 :=
    bdry_unit_nodes.map (fun row => row.map (fun x => (x + 1) * (1 / 2)))
  transposeMat (addRowVec (transposeMat (matMulQ A bdry_unit_nodes_01)) b)

/-- Claim C2: for every (group-dimension, face id) batch — whose stored batch
data is `A = faceA dim face_id`, `b = faceB dim face_id`, exactly the
coefficients `make_face_restriction` used — the `result_unit_nodes` that
`_build_boundary_connection` stores in the `InterpolationBatch`, computed from
the boundary discretization group's unit nodes, equal the `face_unit_nodes`
that `make_face_restriction` used to build the resampling matrix, provided
the boundary discretization group's unit nodes agree with the canonical
boundary unit nodes (the `Discretization` factory is external to the
sources; per the spec both are the canonical face unit nodes). -/
theorem boundary_connection_result_unit_nodes_eq (dim face_id : ℕ)
    (bdry_grp_unit_nodes bdry_unit_nodes : List (List ℚ))
    (hnodes : bdry_grp_unit_nodes = bdry_unit_nodes) :
    result_unit_nodes (faceA dim face_id) (faceB dim face_id) bdry_grp_unit_nodes
      = face_unit_nodes (faceA dim face_id) (faceB dim face_id) bdry_unit_nodes := by
  subst hnodes
  rfl

/-- Witness for C2: dimension 2, face 1, a concrete two-point node set. -/
theorem boundary_connection_result_unit_nodes_eq_witness :
    result_unit_nodes (faceA 2 1) (faceB 2 1) [[-1, 1]]
      = face_unit_nodes (faceA 2 1) (faceB 2 1) [[-1, 1]] :=
  boundary_connection_result_unit_nodes_eq 2 1 [[-1, 1]] [[-1, 1]] rfl

/-! ## MeshElementGroup (meshmode/mesh/__init__.py)

The `pytools.Record` fields of `MeshElementGroup` as set up in `__init__`:
`order`, `vertex_indices`, `nodes`, `unit_nodes`, `element_nr_base`,
`node_nr_base`.  Unassigned bases (`None` in Python) are `none`.
`vertex_indices` is a list of per-element rows of global vertex indices;
`nodes` is the `(ambient_dim, nelements, nunit_nodes)` tensor;
`unit_nodes` is the `(dim, nunit_nodes)` array as a list of rows. -/

structure MeshElementGroup where
  order : ℕ := 0
  vertex_indices : List (List ℕ) := []
  nodes : List (List (List ℚ)) := []
  unit_nodes : List (List ℚ) := []
  element_nr_base : Option ℕ := none
  node_nr_base : Option ℕ := none
  deriving DecidableEq, Repr

instance : Inhabited MeshElementGroup := ⟨{}⟩

/-- `MeshElementGroup.dim = unit_nodes.shape[0]`. -/
def MeshElementGroup.dim (g : MeshElementGroup) : ℕ :=
  g.unit_nodes.length

/-- `MeshElementGroup.nelements = vertex_indices.shape[0]`. -/
def MeshElementGroup.nelements (g : MeshElementGroup) : ℕ :=
  g.vertex_indices.length

/-- `MeshElementGroup.nunit_nodes = unit_nodes.shape[-1]`. -/
def MeshElementGroup.nunit_nodes (g : MeshElementGroup) : ℕ :=
  (g.unit_nodes.getD 0 []).length

/-- `MeshElementGroup.nnodes = nelements * unit_nodes.shape[-1]`. -/
def MeshElementGroup.nnodes (g : MeshElementGroup) : ℕ :=
  g.nelements * g.nunit_nodes

/-- The keyword arguments of `MeshElementGroup.copy(**kwargs)`: an outer
`some` means the key was passed (with that value), `none` that it was
absent.  For the two base fields the carried value is itself optional,
mirroring that Python may pass `None`. -/
structure GroupCopyKwargs where
  order : Option ℕ := none
  vertex_indices : Option (List (List ℕ)) := none
  nodes : Option (List (List (List ℚ))) := none
  unit_nodes : Option (List (List ℚ)) := none
  element_nr_base : Option (Option ℕ) := none
  node_nr_base : Option (Option ℕ) := none
  deriving DecidableEq, Repr

instance : Inhabited GroupCopyKwargs := ⟨{}⟩

/-- `pytools.Record.copy(self, **kwargs)`: a new record whose fields are the
old ones, overridden by whichever keys were passed. -/
def recordCopy (g : MeshElementGroup) (kw : GroupCopyKwargs) : MeshElementGroup where
  order := kw.order.getD g.order
  vertex_indices := kw.vertex_indices.getD g.vertex_indices
  nodes := kw.nodes.getD g.nodes
  unit_nodes := kw.unit_nodes.getD g.unit_nodes
  element_nr_base := kw.element_nr_base.getD g.element_nr_base
  node_nr_base := kw.node_nr_base.getD g.node_nr_base

/-- `MeshElementGroup.copy(self, **kwargs)` (mesh/__init__.py lines 105-110):
if `element_nr_base`/`node_nr_base` are not among the kwargs, insert them
with value `None`, then defer to `Record.copy`. -/
def MeshElementGroup.copy (g : MeshElementGroup) (kw : GroupCopyKwargs) :
    MeshElementGroup :=
  let kw1 := match kw.element_nr_base with
    | none => { kw with element_nr_base := some none }
    | some _ => kw
  let kw2 := match kw1.node_nr_base with
    | none => { kw1 with node_nr_base := some none }
    | some _ => kw1
  recordCopy g kw2

/-- `MeshElementGroup.join_mesh(self, element_nr_base, node_nr_base)`
(mesh/__init__.py lines 116-123): error if the group already joined a mesh,
otherwise a copy stamped with the two offsets. -/
def MeshElementGroup.join_mesh (g : MeshElementGroup)
    (element_nr_base node_nr_base : ℕ) : Except String MeshElementGroup :=
  if g.element_nr_base ≠ none then
    .error "this element group has already joined a mesh, cannot join another"
  else
    .ok (g.copy { element_nr_base := some (some element_nr_base),
                  node_nr_base := some (some node_nr_base) })

/-! ## ElementConnectivity and Mesh -/

/-- `ElementConnectivity` is a bare `pytools.Record`: its fields are exactly
the keyword arguments of its construction site.  Modelled as an association
list from field-name strings to integer arrays, so that the two construction
sites (which use different field names) stay distinguishable. -/
def ElementConnectivity : Type := List (String × List ℕ)

instance : DecidableEq ElementConnectivity :=
  inferInstanceAs (DecidableEq (List (String × List ℕ)))

instance : Inhabited ElementConnectivity := ⟨([] : List (String × List ℕ))⟩

/-- Field access on an `ElementConnectivity` record. -/
def connField (c : ElementConnectivity) (name : String) : Option (List ℕ) :=
  List.lookup name c

/-- The `_element_connectivity` slot of a `Mesh`: Python `False` (marked
unavailable), Python `None` (not yet computed) or a computed/supplied record. -/
inductive ConnCache where
  | unavailable
  | uncomputed
  | computed (c : ElementConnectivity)
  deriving DecidableEq

/-- The `element_connectivity` argument of `Mesh.__init__`: `False`, `None`,
or a `(element_neighbors_starts, element_neighbors)` tuple. -/
inductive ConnArg where
  | unavailable
  | deduce
  | supplied (nb_starts nbs : List ℕ)
  deriving DecidableEq

/-- The per-group facial adjacency record consumed by `face.py`.  Modelled
from the spec: the facial adjacency table is an external input `one per
element group, keyed by a neighbor-group identifier or None for boundary`,
whose boundary-keyed entries carry, per flagged (element, local face) pair,
the element id, the local face id, and a negative neighbor value whose bits
encode the applicable boundary tags. -/
structure FacialAdjacencyGroup where
  igroup : ℕ := 0
  elements : List ℕ := []
  element_faces : List ℕ := []
  neighbors : List ℤ := []
  deriving DecidableEq, Repr

instance : Inhabited FacialAdjacencyGroup := ⟨{}⟩

/-- One group's facial adjacency map, keyed by `ineighbor_group`
(`none` = boundary faces). -/
def FagrpMap : Type := List (Option ℕ × FacialAdjacencyGroup)

instance : DecidableEq FagrpMap :=
  inferInstanceAs (DecidableEq (List (Option ℕ × FacialAdjacencyGroup)))

instance : Inhabited FagrpMap := ⟨([] : List (Option ℕ × FacialAdjacencyGroup))⟩

/-- The `Mesh` record: the global vertex table (modelled as the list of
per-vertex coordinate columns of the `(ambient_dim, nvertices)` array), the
stamped groups, the connectivity slot, and the externally supplied facial
adjacency tables (spec-modelled, used only by `face.py`). -/
structure Mesh where
  vertices : List (List ℚ) := []
  groups : List MeshElementGroup := []
  _element_connectivity : ConnCache := ConnCache.uncomputed
  facial_adjacency_groups : List FagrpMap := []

/-- `Mesh.nvertices = vertices.shape[-1]`. -/
def Mesh.nvertices (m : Mesh) : ℕ :=
  m.vertices.length

/-- `Mesh.nelements = sum(grp.nelements for grp in self.groups)`. -/
def Mesh.nelements (m : Mesh) : ℕ :=
  (m.groups.map (·.nelements)).sum

/-- The group-stamping loop of `Mesh.__init__` (mesh/__init__.py lines
285-293): each group joins the mesh at the running element/node offsets. -/
def joinAll (groups : List MeshElementGroup) (el_nr node_nr : ℕ) :
    Except String (List MeshElementGroup) :=
  match groups with
  | [] => .ok []
  | g :: gs => do
      let ng ← g.join_mesh el_nr node_nr
      let rest ← joinAll gs (el_nr + ng.nelements) (node_nr + ng.nnodes)
      .ok (ng :: rest)

/-- `Mesh.__init__` (mesh/__init__.py lines 265-309): stamp the groups with
running offsets and set up the connectivity slot.  An explicitly supplied
tuple is wrapped in an `ElementConnectivity` record with fields
`element_neighbors_starts` / `element_neighbors`; `False` marks the slot
unavailable; `None` leaves it to be deduced lazily.  (The `skip_tests`
validation body, which only asserts, is omitted.) -/
def Mesh.make (vertices : List (List ℚ)) (groups : List MeshElementGroup)
    (element_connectivity : ConnArg)
    (facial_adjacency_groups : List FagrpMap := []) : Except String Mesh := do
  let new_groups ← joinAll groups 0 0
  let cache := match element_connectivity with
    | .unavailable => ConnCache.unavailable
    | .deduce => ConnCache.uncomputed
    | .supplied nb_starts nbs =>
        ConnCache.computed
          [("element_neighbors_starts", nb_starts), ("element_neighbors", nbs)]
  .ok { vertices := vertices, groups := new_groups,
        _element_connectivity := cache,
        facial_adjacency_groups := facial_adjacency_groups }

/-! ## Vertex-based connectivity (`_compute_connectivity_from_vertices`)

Python lists used as index-addressed tables (`vertex_to_element`,
`element_to_element`) are modelled as functions `ℕ → List ℕ`; an in-place
assignment `t[i] = l` becomes `listSet t i l`.  A Python `set` built by
repeated `.update(...)` is modelled as an insertion-ordered duplicate-free
list (`setUpdate`), which is faithful for membership, duplicate-freeness and
length. -/

/-- Assignment `t[i] = l` on an index-addressed table. -/
def listSet (t : ℕ → List ℕ) (i : ℕ) (l : List ℕ) : ℕ → List ℕ :=
  fun j => if j = i then l else t j

/-- `s.update(xs)` on the set `s` (insertion-ordered, duplicate-free). -/
def setUpdate (s xs : List ℕ) : List ℕ :=
  xs.foldl (fun s x => if x ∈ s then s else s ++ [x]) s

/-- The common iteration shape of the two loops of
`_compute_connectivity_from_vertices`:
`for grp in mesh.groups: iel_base = grp.element_nr_base;
for iel_grp in range(grp.nelements): for ... grp.vertex_indices[iel_grp]`,
where `step` processes one element given its global number
`iel_base + iel_grp` and its vertex list.  (`element_nr_base` was stamped by
`Mesh.__init__`; the `getD 0` never applies on a constructed mesh.) -/
def groupFold (step : (ℕ → List ℕ) → ℕ → List ℕ → (ℕ → List ℕ))
    (groups : List MeshElementGroup) (t0 : ℕ → List ℕ) : ℕ → List ℕ :=
  groups.foldl (fun t grp =>
    grp.vertex_indices.enum.foldl
      (fun t p => step t (grp.element_nr_base.getD 0 + p.1) p.2) t) t0

/-- Body of the first loop: `for ivertex in grp.vertex_indices[iel_grp]:
vertex_to_element[ivertex].append(iel_base + iel_grp)`. -/
def v2eStep (t : ℕ → List ℕ) (e : ℕ) (vs : List ℕ) : ℕ → List ℕ :=
  vs.foldl (fun t iv => listSet t iv (t iv ++ [e])) t

/-- Body of the second loop: `for ivertex in grp.vertex_indices[iel_grp]:
element_to_element[iel_base + iel_grp].update(vertex_to_element[ivertex])`. -/
def e2eStep (v2e : ℕ → List ℕ) (t : ℕ → List ℕ) (e : ℕ) (vs : List ℕ) :
    ℕ → List ℕ :=
  vs.foldl (fun t iv => listSet t e (setUpdate (t e) (v2e iv))) t

/-- The `vertex_to_element` table (mesh/__init__.py lines 411-418). -/
def vertexToElement (m : Mesh) : ℕ → List ℕ :=
  groupFold v2eStep m.groups (fun _ => [])

/-- The `element_to_element` table (mesh/__init__.py lines 420-426). -/
def elementToElement (m : Mesh) : ℕ → List ℕ :=
  groupFold (e2eStep (vertexToElement m)) m.groups (fun _ => [])

/-- The materialized `element_to_element` list (one entry per global
element). -/
def e2eList (m : Mesh) : List (List ℕ) :=
  (List.range m.nelements).map (elementToElement m)

/-- `neighbors_starts = np.cumsum(np.array([0] + lengths))`
(mesh/__init__.py lines 428-430). -/
def neighborsStarts (m : Mesh) : List ℕ :=
  ((e2eList m).map List.length).scanl (· + ·) 0

/-- `neighbors = np.array(list(flatten(element_to_element)))`
(mesh/__init__.py lines 431-434). -/
def neighborsFlat (m : Mesh) : List ℕ :=
  (e2eList m).flatten

/-- `_compute_connectivity_from_vertices(mesh)` (mesh/__init__.py lines
408-440): the returned `ElementConnectivity(neighbors_starts=...,
neighbors=...)` record. -/
def _compute_connectivity_from_vertices (m : Mesh) : ElementConnectivity :=
  [("neighbors_starts", neighborsStarts m), ("neighbors", neighborsFlat m)]

/-- `Mesh.element_connectivity` (mesh/__init__.py lines 339-346).  The
Python property mutates the `Mesh` in place to cache the computed record;
the embedding passes the state explicitly: the result is either the
distinguished `ConnectivityUnavailable` condition or the record together
with the (possibly updated) mesh. -/
inductive MeshError where
  | ConnectivityUnavailable
  deriving DecidableEq

def Mesh.element_connectivity (m : Mesh) :
    Except MeshError (ElementConnectivity × Mesh) :=
  match m._element_connectivity with
  | .unavailable => .error .ConnectivityUnavailable
  | .uncomputed =>
      let c := _compute_connectivity_from_vertices m
      .ok (c, { m with _element_connectivity := .computed c })
  | .computed c => .ok (c, m)

/-! ### Validity of a mesh (the claims' "valid mesh") -/

/-- The groups carry `element_nr_base` offsets as stamped by `Mesh.__init__`
starting from running count `n`. -/
def stampedFrom : ℕ → List MeshElementGroup → Prop
  | _, [] => True
  | n, g :: gs => g.element_nr_base = some n ∧ stampedFrom (n + g.nelements) gs

/-- A mesh whose groups are stamped with the running element offsets. -/
def Mesh.stamped (m : Mesh) : Prop :=
  stampedFrom 0 m.groups

/-- Every vertex index used by a group is a valid index into the global
vertex table. -/
def Mesh.vertexIndicesValid (m : Mesh) : Prop :=
  ∀ g ∈ m.groups, ∀ row ∈ g.vertex_indices, ∀ v ∈ row, v < m.nvertices

/-- The flattened global element list: element `i`'s vertex row, in the
mesh-global numbering that the stamped offsets realize. -/
def allElems (m : Mesh) : List (List ℕ) :=
  (m.groups.map (·.vertex_indices)).flatten

/-- The global vertex list of global element `i`. -/
def gvl (m : Mesh) (i : ℕ) : List ℕ :=
  (allElems m).getD i []

/-- Elements `i` and `j` share at least one global vertex index. -/
def sharesVertex (m : Mesh) (i j : ℕ) : Prop :=
  ∃ v, v ∈ gvl m i ∧ v ∈ gvl m j

/-! ### Fold lemmas for the connectivity builder -/

theorem setUpdate_mem (xs : List ℕ) : ∀ (s : List ℕ) (x : ℕ),
    x ∈ setUpdate s xs ↔ x ∈ s ∨ x ∈ xs := by
  induction xs with
  | nil => intro s x; simp [setUpdate]
  | cons y ys ih =>
      intro s x
      show x ∈ setUpdate (if y ∈ s then s else s ++ [y]) ys ↔ _
      rw [ih]
      by_cases hy : y ∈ s
      · simp only [if_pos hy, List.mem_cons]
        constructor
        · tauto
        · rintro (h | h | h)
          · tauto
          · subst h; tauto
          · tauto
      · simp only [if_neg hy, List.mem_append, List.mem_cons,
          List.mem_singleton]
        tauto

theorem setUpdate_nodup (xs : List ℕ) : ∀ s : List ℕ,
    s.Nodup → (setUpdate s xs).Nodup := by
  induction xs with
  | nil => intro s hs; exact hs
  | cons y ys ih =>
      intro s hs
      show (setUpdate (if y ∈ s then s else s ++ [y]) ys).Nodup
      apply ih
      by_cases hy : y ∈ s
      · simpa [hy]
      · simp [hy, List.nodup_append, hs]

theorem v2eStep_mem (vs : List ℕ) : ∀ (t : ℕ → List ℕ) (e v x : ℕ),
    x ∈ v2eStep t e vs v ↔ x ∈ t v ∨ (x = e ∧ v ∈ vs) := by
  induction vs with
  | nil => intro t e v x; simp [v2eStep]
  | cons iv ivs ih =>
      intro t e v x
      show x ∈ v2eStep (listSet t iv (t iv ++ [e])) e ivs v ↔ _
      rw [ih]
      by_cases hv : v = iv
      · subst hv
        have hset : listSet t v (t v ++ [e]) v = t v ++ [e] := by
          simp [listSet]
        have hm : v ∈ v :: ivs := List.mem_cons_self v ivs
        rw [hset]
        simp only [List.mem_append, List.mem_singleton, hm, and_true]
        tauto
      · have hset : listSet t iv (t iv ++ [e]) v = t v := by
          simp [listSet, hv]
        rw [hset]
        simp only [List.mem_cons, hv, false_or]

theorem e2eStep_eq (vs : List ℕ) : ∀ (v2e t : ℕ → List ℕ) (e : ℕ),
    e2eStep v2e t e vs
      = listSet t e (vs.foldl (fun s iv => setUpdate s (v2e iv)) (t e)) := by
  induction vs with
  | nil =>
      intro v2e t e
      funext j
      simp only [e2eStep, List.foldl_nil, listSet]
      split <;> simp_all
  | cons iv ivs ih =>
      intro v2e t e
      show e2eStep v2e (listSet t e (setUpdate (t e) (v2e iv))) e ivs = _
      rw [ih]
      funext j
      simp only [listSet]
      by_cases hj : j = e <;> simp [hj]

theorem foldSetUpdate_mem (vs : List ℕ) : ∀ (v2e : ℕ → List ℕ) (s : List ℕ)
    (x : ℕ), x ∈ vs.foldl (fun s iv => setUpdate s (v2e iv)) s
      ↔ x ∈ s ∨ ∃ v ∈ vs, x ∈ v2e v := by
  induction vs with
  | nil => intro v2e s x; simp
  | cons iv ivs ih =>
      intro v2e s x
      show x ∈ ivs.foldl _ (setUpdate s (v2e iv)) ↔ _
      rw [ih, setUpdate_mem]
      constructor
      · rintro ((h | h) | ⟨v, hv, hx⟩)
        · tauto
        · exact Or.inr ⟨iv, List.mem_cons_self iv ivs, h⟩
        · exact Or.inr ⟨v, List.mem_cons_of_mem iv hv, hx⟩
      · rintro (h | ⟨v, hv, hx⟩)
        · tauto
        · rcases List.mem_cons.mp hv with h | h
          · subst h; tauto
          · exact Or.inr ⟨v, h, hx⟩

theorem foldSetUpdate_nodup (vs : List ℕ) : ∀ (v2e : ℕ → List ℕ)
    (s : List ℕ), s.Nodup →
    (vs.foldl (fun s iv => setUpdate s (v2e iv)) s).Nodup := by
  induction vs with
  | nil => intro v2e s hs; exact hs
  | cons iv ivs ih =>
      intro v2e s hs
      exact ih v2e _ (setUpdate_nodup _ _ hs)

/-- Fold over the elements of a list with explicit global indices starting
at `n`; the shape the group-wise loops of the connectivity builder reduce to
on a stamped mesh. -/
def elemFold (step : (ℕ → List ℕ) → ℕ → List ℕ → (ℕ → List ℕ))
    (L : List (List ℕ)) (n : ℕ) (t0 : ℕ → List ℕ) : ℕ → List ℕ :=
  (L.enumFrom n).foldl (fun t p => step t p.1 p.2) t0

theorem enumFrom_offset_foldl (L : List (List ℕ))
    (step : (ℕ → List ℕ) → ℕ → List ℕ → (ℕ → List ℕ)) (n : ℕ) :
    ∀ (k : ℕ) (t0 : ℕ → List ℕ),
    (L.enumFrom k).foldl (fun t p => step t (n + p.1) p.2) t0
      = (L.enumFrom (n + k)).foldl (fun t p => step t p.1 p.2) t0 := by
  induction L with
  | nil => intro k t0; rfl
  | cons a as ih =>
      intro k t0
      simp only [List.enumFrom_cons, List.foldl_cons]
      have hnk : n + k + 1 = n + (k + 1) := by omega
      rw [ih (k + 1), hnk]

theorem groupFold_eq_elemFold
    (step : (ℕ → List ℕ) → ℕ → List ℕ → (ℕ → List ℕ)) :
    ∀ (gs : List MeshElementGroup) (n : ℕ) (t0 : ℕ → List ℕ),
    stampedFrom n gs →
    gs.foldl (fun t grp =>
        grp.vertex_indices.enum.foldl
          (fun t p => step t (grp.element_nr_base.getD 0 + p.1) p.2) t) t0
      = elemFold step ((gs.map (·.vertex_indices)).flatten) n t0 := by
  intro gs
  induction gs with
  | nil => intro n t0 _; rfl
  | cons g gs ih =>
      intro n t0 h
      obtain ⟨hg, hrest⟩ := h
      simp only [List.foldl_cons, List.map_cons, List.flatten_cons]
      rw [hg]
      have hinner : g.vertex_indices.enum.foldl
          (fun t p => step t ((some n).getD 0 + p.1) p.2) t0
          = elemFold step g.vertex_indices n t0 := by
        show g.vertex_indices.enum.foldl (fun t p => step t (n + p.1) p.2) t0 = _
        rw [List.enum, enumFrom_offset_foldl]
        rfl
      rw [hinner]
      rw [ih (n + g.nelements) (elemFold step g.vertex_indices n t0) hrest]
      show elemFold step _ _ _ = _
      unfold elemFold
      rw [List.enumFrom_append, List.foldl_append]
      rfl

theorem elemFold_v2e_mem : ∀ (L : List (List ℕ)) (n : ℕ) (t0 : ℕ → List ℕ)
    (v x : ℕ), x ∈ elemFold v2eStep L n t0 v
      ↔ x ∈ t0 v ∨ ∃ j < L.length, x = n + j ∧ v ∈ L.getD j [] := by
  intro L
  induction L with
  | nil => intro n t0 v x; simp [elemFold]
  | cons a as ih =>
      intro n t0 v x
      have hstep : elemFold v2eStep (a :: as) n t0
          = elemFold v2eStep as (n + 1) (v2eStep t0 n a) := by
        simp [elemFold, List.enumFrom_cons]
      rw [hstep, ih, v2eStep_mem]
      constructor
      · rintro ((h | ⟨hx, hv⟩) | ⟨j, hj, hx, hv⟩)
        · exact Or.inl h
        · exact Or.inr ⟨0, by simp, by omega,
            by rw [List.getD_cons_zero]; exact hv⟩
        · exact Or.inr ⟨j + 1, by simp only [List.length_cons]; omega, by omega,
            by rw [List.getD_cons_succ]; exact hv⟩
      · rintro (h | ⟨j, hj, hx, hv⟩)
        · exact Or.inl (Or.inl h)
        · match j, hj, hx, hv with
          | 0, hj, hx, hv =>
              exact Or.inl (Or.inr ⟨by omega, by rw [List.getD_cons_zero] at hv; exact hv⟩)
          | j + 1, hj, hx, hv =>
              exact Or.inr ⟨j, by simp only [List.length_cons] at hj; omega,
                by omega, by rw [List.getD_cons_succ] at hv; exact hv⟩

theorem elemFold_e2e_apply (v2e : ℕ → List ℕ) : ∀ (L : List (List ℕ)) (n : ℕ)
    (t0 : ℕ → List ℕ) (i : ℕ),
    elemFold (e2eStep v2e) L n t0 i
      = if n ≤ i ∧ i < n + L.length then
          (L.getD (i - n) []).foldl (fun s iv => setUpdate s (v2e iv)) (t0 i)
        else t0 i := by
  intro L
  induction L with
  | nil =>
      intro n t0 i
      rw [if_neg (by simp only [List.length_nil]; omega)]
      rfl
  | cons a as ih =>
      intro n t0 i
      have hstep : elemFold (e2eStep v2e) (a :: as) n t0
          = elemFold (e2eStep v2e) as (n + 1) (e2eStep v2e t0 n a) := by
        simp [elemFold, List.enumFrom_cons]
      rw [hstep, ih, e2eStep_eq]
      by_cases h0 : i = n
      · subst h0
        rw [if_neg (by omega), if_pos (by simp only [List.length_cons]; omega)]
        simp [listSet]
      · have hset : listSet t0 n (a.foldl (fun s iv => setUpdate s (v2e iv))
            (t0 n)) i = t0 i := by simp [listSet, h0]
        by_cases h1 : n + 1 ≤ i ∧ i < n + 1 + as.length
        · rw [if_pos h1, if_pos (by simp only [List.length_cons]; omega), hset]
          have hidx : i - n = (i - (n + 1)) + 1 := by omega
          rw [hidx, List.getD_cons_succ]
        · rw [if_neg h1, if_neg (by simp only [List.length_cons]; omega), hset]

theorem e2eStep_nodup (v2e t : ℕ → List ℕ) (e : ℕ) (vs : List ℕ)
    (h : ∀ j, (t j).Nodup) : ∀ j, (e2eStep v2e t e vs j).Nodup := by
  intro j
  rw [e2eStep_eq]
  simp only [listSet]
  split
  · exact foldSetUpdate_nodup _ _ _ (h e)
  · exact h j

theorem foldl_table_nodup {α : Type} (f : (ℕ → List ℕ) → α → (ℕ → List ℕ))
    (hf : ∀ t a, (∀ j, (t j).Nodup) → ∀ j, ((f t a) j).Nodup) :
    ∀ (l : List α) (t0 : ℕ → List ℕ), (∀ j, (t0 j).Nodup) →
    ∀ j, ((l.foldl f t0) j).Nodup := by
  intro l
  induction l with
  | nil => intro t0 h0 j; exact h0 j
  | cons a as ih => intro t0 h0 j; exact ih (f t0 a) (hf t0 a h0) j

theorem elementToElement_nodup (m : Mesh) (i : ℕ) :
    (elementToElement m i).Nodup := by
  unfold elementToElement groupFold
  refine foldl_table_nodup _ ?_ m.groups (fun _ => []) (fun _ => List.nodup_nil) i
  intro t grp ht
  exact foldl_table_nodup _
    (fun t p h => e2eStep_nodup (vertexToElement m) t _ p.2 h)
    grp.vertex_indices.enum t ht

theorem allElems_length (m : Mesh) : (allElems m).length = m.nelements := by
  simp only [allElems, Mesh.nelements, List.length_flatten, List.map_map]
  rfl

theorem vertexToElement_mem (m : Mesh) (hst : m.stamped) (v x : ℕ) :
    x ∈ vertexToElement m v ↔ x < (allElems m).length ∧ v ∈ gvl m x := by
  have h2 : vertexToElement m
      = elemFold v2eStep (allElems m) 0 (fun _ => []) := by
    unfold vertexToElement groupFold allElems
    exact groupFold_eq_elemFold v2eStep m.groups 0 (fun _ => []) hst
  rw [h2, elemFold_v2e_mem]
  simp only [List.not_mem_nil, false_or]
  constructor
  · rintro ⟨j, hj, hx, hv⟩
    have hxj : x = j := by omega
    subst hxj
    exact ⟨hj, hv⟩
  · rintro ⟨hx, hv⟩
    exact ⟨x, hx, by omega, hv⟩

theorem elementToElement_apply (m : Mesh) (hst : m.stamped) (i : ℕ) :
    elementToElement m i
      = if i < (allElems m).length then
          (gvl m i).foldl (fun s iv => setUpdate s (vertexToElement m iv)) []
        else [] := by
  have h2 : elementToElement m
      = elemFold (e2eStep (vertexToElement m)) (allElems m) 0 (fun _ => []) :=
    by
    unfold elementToElement groupFold allElems
    exact groupFold_eq_elemFold _ m.groups 0 (fun _ => []) hst
  rw [h2, elemFold_e2e_apply]
  by_cases hi : i < (allElems m).length
  · rw [if_pos (by omega), if_pos hi]
    simp [gvl]
  · rw [if_neg (by omega), if_neg hi]

theorem elementToElement_mem (m : Mesh) (hst : m.stamped) (i x : ℕ) :
    x ∈ elementToElement m i ↔ sharesVertex m i x := by
  rw [elementToElement_apply m hst i]
  by_cases hi : i < (allElems m).length
  · rw [if_pos hi, foldSetUpdate_mem]
    simp only [List.not_mem_nil, false_or]
    constructor
    · rintro ⟨v, hv, hx⟩
      rw [vertexToElement_mem m hst] at hx
      exact ⟨v, hv, hx.2⟩
    · rintro ⟨v, hvi, hvx⟩
      refine ⟨v, hvi, ?_⟩
      rw [vertexToElement_mem m hst]
      refine ⟨?_, hvx⟩
      by_contra hx
      push_neg at hx
      have hnil : gvl m x = [] := List.getD_eq_default _ _ (by omega)
      rw [hnil] at hvx
      exact List.not_mem_nil v hvx
  · rw [if_neg hi]
    simp only [List.not_mem_nil, false_iff]
    rintro ⟨v, hvi, _⟩
    have hnil : gvl m i = [] := List.getD_eq_default _ _ (by omega)
    rw [hnil] at hvi
    exact List.not_mem_nil v hvi

/-! ### CSR layout lemmas -/

/-- The Python slice `l[a:b]`. -/
def sliceList (l : List ℕ) (a b : ℕ) : List ℕ :=
  (l.drop a).take (b - a)

/-- The neighbor list of element `i` per the connectivity record:
`neighbors[neighbors_starts[i] : neighbors_starts[i+1]]`. -/
def neighborsSlice (m : Mesh) (i : ℕ) : List ℕ :=
  sliceList (neighborsFlat m) ((neighborsStarts m).getD i 0)
    ((neighborsStarts m).getD (i + 1) 0)

theorem scanl_add_getD : ∀ (ls : List ℕ) (c i : ℕ), i ≤ ls.length →
    (List.scanl (· + ·) c ls).getD i 0 = c + (ls.take i).sum := by
  intro ls
  induction ls with
  | nil =>
      intro c i h
      have hi : i = 0 := by simpa using h
      subst hi
      simp
  | cons a as ih =>
      intro c i h
      match i with
      | 0 => simp
      | i + 1 =>
          rw [List.scanl_cons, List.singleton_append, List.getD_cons_succ,
            ih (c + a) i (by simpa using h)]
          simp only [List.take_succ_cons, List.sum_cons]
          omega

theorem e2eList_length (m : Mesh) : (e2eList m).length = m.nelements := by
  simp [e2eList]

theorem e2eList_getD (m : Mesh) (i : ℕ) (hi : i < m.nelements) :
    (e2eList m).getD i [] = elementToElement m i := by
  rw [List.getD_eq_getElem _ _ (by rw [e2eList_length]; omega)]
  simp [e2eList]

theorem neighborsStarts_length (m : Mesh) :
    (neighborsStarts m).length = m.nelements + 1 := by
  simp [neighborsStarts, List.length_scanl, e2eList_length]

theorem neighborsStarts_getD (m : Mesh) (i : ℕ) (hi : i ≤ m.nelements) :
    (neighborsStarts m).getD i 0
      = (((e2eList m).map List.length).take i).sum := by
  rw [neighborsStarts, scanl_add_getD _ 0 i
    (by rw [List.length_map, e2eList_length]; omega)]
  omega

theorem flatten_slice (L : List (List ℕ)) (i : ℕ) (h : i < L.length) :
    sliceList L.flatten (((L.map List.length).take i).sum)
      (((L.map List.length).take (i + 1)).sum) = L.getD i [] := by
  have hlen : ((L.map List.length).take (i + 1)).sum
      = ((L.map List.length).take i).sum + (L.getD i []).length := by
    rw [List.sum_take_succ _ i (by simpa using h)]
    congr 1
    rw [List.getElem_map, List.getD_eq_getElem _ _ h]
  unfold sliceList
  rw [hlen, Nat.add_sub_cancel_left, List.drop_sum_flatten]
  have hdrop : L.drop i = L.getD i [] :: L.drop (i + 1) := by
    rw [List.getD_eq_getElem _ _ h]
    exact List.drop_eq_getElem_cons h
  rw [hdrop, List.flatten_cons]
  exact List.take_left _ _

theorem neighborsSlice_eq (m : Mesh) (i : ℕ) (hi : i < m.nelements) :
    neighborsSlice m i = (e2eList m).getD i [] := by
  unfold neighborsSlice neighborsFlat
  rw [neighborsStarts_getD m i (by omega),
    neighborsStarts_getD m (i + 1) (by omega)]
  exact flatten_slice (e2eList m) i (by rw [e2eList_length]; omega)

theorem neighborsSlice_nil (m : Mesh) (i : ℕ) (hi : m.nelements ≤ i) :
    neighborsSlice m i = [] := by
  unfold neighborsSlice sliceList
  have hb : (neighborsStarts m).getD (i + 1) 0 = 0 :=
    List.getD_eq_default _ _ (by rw [neighborsStarts_length]; omega)
  rw [hb]
  simp [Nat.zero_sub]

theorem sum_take_mono (ls : List ℕ) (i j : ℕ) (hij : i ≤ j) :
    (ls.take i).sum ≤ (ls.take j).sum := by
  conv_rhs => rw [← List.take_append_drop i (ls.take j)]
  rw [List.sum_append, List.take_take, min_eq_left hij]
  omega

/-! ## Claims C3 and C4 -/

/-- Claim C3: on a valid mesh (groups stamped with their element offsets,
vertex indices in range), the connectivity produced by
`_compute_connectivity_from_vertices` lists global element `j` among the
neighbors of global element `i` (the slice
`neighbors[neighbors_starts[i] : neighbors_starts[i+1]]`) if and only if
`i` and `j` share at least one global vertex index; in particular every
element with at least one vertex appears in its own neighbor list. -/
theorem connectivity_iff_shares_vertex (m : Mesh) (hst : m.stamped)
    (hvv : m.vertexIndicesValid) (i j : ℕ) :
    (j ∈ neighborsSlice m i ↔ sharesVertex m i j) ∧
    (gvl m i ≠ [] → i ∈ neighborsSlice m i) := by
  have hmem : ∀ a b : ℕ, b ∈ neighborsSlice m a ↔ sharesVertex m a b := by
    intro a b
    by_cases ha : a < m.nelements
    · rw [neighborsSlice_eq m a ha, e2eList_getD m a ha]
      exact elementToElement_mem m hst a b
    · rw [neighborsSlice_nil m a (by omega)]
      simp only [List.not_mem_nil, false_iff]
      rintro ⟨v, hva, _⟩
      have hnil : gvl m a = [] :=
        List.getD_eq_default _ _ (by rw [allElems_length]; omega)
      rw [hnil] at hva
      exact List.not_mem_nil v hva
  refine ⟨hmem i j, fun hne => ?_⟩
  rw [hmem i i]
  obtain ⟨v, hv⟩ := List.exists_mem_of_ne_nil _ hne
  exact ⟨v, hv, hv⟩

/-- A concrete stamped two-segment mesh (three vertices on a line, two
elements sharing vertex 1), used as witness input. -/
def segMesh : Mesh where
  vertices := [[0], [1], [2]]
  groups := [{ vertex_indices := [[0, 1], [1, 2]],
               unit_nodes := [[-1, 1]],
               element_nr_base := some 0,
               node_nr_base := some 0 }]

theorem segMesh_stamped : segMesh.stamped := by
  refine ⟨rfl, trivial⟩

theorem segMesh_valid : segMesh.vertexIndicesValid := by
  intro g hg row hrow v hv
  fin_cases hg
  fin_cases hrow <;> fin_cases hv <;> decide

/-- Witness for C3: in `segMesh`, element 1 neighbors element 0 (they share
vertex 1) and element 0 is its own neighbor. -/
theorem connectivity_iff_shares_vertex_witness :
    (1 ∈ neighborsSlice segMesh 0 ↔ sharesVertex segMesh 0 1) ∧
    (gvl segMesh 0 ≠ [] → 0 ∈ neighborsSlice segMesh 0) :=
  connectivity_iff_shares_vertex segMesh segMesh_stamped segMesh_valid 0 1

/-- Claim C4: the `ElementConnectivity` built by
`_compute_connectivity_from_vertices` satisfies the CSR invariants:
`neighbors_starts` has length `nelements + 1`, starts at 0, is monotonically
non-decreasing, ends at `len(neighbors)`, and the neighbor set of element
`i` is exactly the duplicate-free slice
`neighbors[neighbors_starts[i] : neighbors_starts[i+1]]`. -/
theorem connectivity_csr_invariants (m : Mesh) (i j : ℕ) (hij : i ≤ j)
    (hj : j < (neighborsStarts m).length) (hi : i < m.nelements) :
    (neighborsStarts m).length = m.nelements + 1 ∧
    (neighborsStarts m).getD 0 0 = 0 ∧
    (neighborsStarts m).getD i 0 ≤ (neighborsStarts m).getD j 0 ∧
    (neighborsStarts m).getD m.nelements 0 = (neighborsFlat m).length ∧
    neighborsSlice m i = (e2eList m).getD i [] ∧
    (neighborsSlice m i).Nodup := by
  have hjn : j ≤ m.nelements := by
    rw [neighborsStarts_length] at hj
    omega
  refine ⟨neighborsStarts_length m, ?_, ?_, ?_, neighborsSlice_eq m i hi, ?_⟩
  · rw [neighborsStarts_getD m 0 (by omega)]
    simp
  · rw [neighborsStarts_getD m i (by omega), neighborsStarts_getD m j hjn]
    exact sum_take_mono _ i j hij
  · rw [neighborsStarts_getD m m.nelements (by omega)]
    have hl : ((e2eList m).map List.length).length = m.nelements := by
      rw [List.length_map, e2eList_length]
    rw [← hl, List.take_length, neighborsFlat, List.length_flatten]
  · rw [neighborsSlice_eq m i hi, e2eList_getD m i hi]
    exact elementToElement_nodup m i

/-- Witness for C4 on `segMesh` at `i = 0`, `j = 1`. -/
theorem connectivity_csr_invariants_witness :
    (neighborsStarts segMesh).length = segMesh.nelements + 1 ∧
    (neighborsStarts segMesh).getD 0 0 = 0 ∧
    (neighborsStarts segMesh).getD 0 0 ≤ (neighborsStarts segMesh).getD 1 0 ∧
    (neighborsStarts segMesh).getD segMesh.nelements 0
      = (neighborsFlat segMesh).length ∧
    neighborsSlice segMesh 0 = (e2eList segMesh).getD 0 [] ∧
    (neighborsSlice segMesh 0).Nodup :=
  connectivity_csr_invariants segMesh 0 1 (by decide)
    (by rw [neighborsStarts_length]; decide) (by decide)

/-! ## Claims C7-C10: record plumbing -/

/-- The group as stamped by a successful `join_mesh`. -/
def stampGroup (g : MeshElementGroup) (el node : ℕ) : MeshElementGroup :=
  { g with element_nr_base := some el, node_nr_base := some node }

theorem join_mesh_ok (g : MeshElementGroup) (h : g.element_nr_base = none)
    (el node : ℕ) :
    g.join_mesh el node = .ok (stampGroup g el node) := by
  simp [MeshElementGroup.join_mesh, h, MeshElementGroup.copy, recordCopy,
    stampGroup]

theorem joinAll_stamps : ∀ (gs : List MeshElementGroup),
    (∀ g ∈ gs, g.element_nr_base = none) → ∀ (el node : ℕ),
    ∃ gs2, joinAll gs el node = .ok gs2 ∧ gs2.length = gs.length ∧
      ∀ i < gs.length,
        (gs2.getD i default).element_nr_base
          = some (el + ((gs.take i).map (·.nelements)).sum) ∧
        (gs2.getD i default).node_nr_base
          = some (node + ((gs.take i).map (·.nnodes)).sum) := by
  intro gs
  induction gs with
  | nil =>
      intro _ el node
      exact ⟨[], rfl, rfl, by intro i hi; simp at hi⟩
  | cons g gs ih =>
      intro h el node
      have hg : g.element_nr_base = none := h g (List.mem_cons_self g gs)
      obtain ⟨gs2, hok, hlen, hprop⟩ :=
        ih (fun g2 hg2 => h g2 (List.mem_cons_of_mem g hg2))
          (el + g.nelements) (node + g.nnodes)
      refine ⟨stampGroup g el node :: gs2, ?_, by simpa using hlen, ?_⟩
      · show joinAll (g :: gs) el node = _
        unfold joinAll
        rw [join_mesh_ok g hg el node]
        show joinAll gs (el + _) (node + _) >>= _ = _
        rw [show (stampGroup g el node).nelements = g.nelements from rfl,
          show (stampGroup g el node).nnodes = g.nnodes from rfl, hok]
        rfl
      · intro i hi
        match i with
        | 0 =>
            constructor <;> simp [stampGroup]
        | i + 1 =>
            have hi2 : i < gs.length := by simpa using hi
            obtain ⟨h1, h2⟩ := hprop i hi2
            constructor
            · rw [List.getD_cons_succ, h1]
              simp only [List.take_succ_cons, List.map_cons, List.sum_cons]
              congr 1
              omega
            · rw [List.getD_cons_succ, h2]
              simp only [List.take_succ_cons, List.map_cons, List.sum_cons]
              congr 1
              omega

theorem make_cache (v : List (List ℚ)) (gs : List MeshElementGroup)
    (conn : ConnArg) (fa : List FagrpMap) (m : Mesh)
    (h : Mesh.make v gs conn fa = .ok m) :
    m._element_connectivity
      = match conn with
        | .unavailable => ConnCache.unavailable
        | .deduce => ConnCache.uncomputed
        | .supplied nb_starts nbs =>
            ConnCache.computed
              [("element_neighbors_starts", nb_starts),
               ("element_neighbors", nbs)] := by
  unfold Mesh.make at h
  cases hj : joinAll gs 0 0 with
  | error e => rw [hj] at h; cases h
  | ok gs2 =>
      rw [hj] at h
      have h2 := h
      simp only [Except.bind] at h2
      cases h2
      cases conn <;> rfl

/-- Claim C7: accessing `element_connectivity` on a mesh constructed with
`element_connectivity=False` yields the distinguished recoverable
`ConnectivityUnavailable` condition; on a mesh constructed with
`element_connectivity=None`, the first access computes the connectivity via
`_compute_connectivity_from_vertices`, caches it on the mesh, and any
further access on the resulting mesh returns the same cached record with
the mesh unchanged (computed at most once). -/
theorem element_connectivity_access
    (v : List (List ℚ)) (gs : List MeshElementGroup) (fa : List FagrpMap)
    (mU mN m m2 : Mesh) (c : ElementConnectivity)
    (hU : Mesh.make v gs ConnArg.unavailable fa = .ok mU)
    (hN : Mesh.make v gs ConnArg.deduce fa = .ok mN)
    (hacc : m.element_connectivity = .ok (c, m2)) :
    mU.element_connectivity = .error MeshError.ConnectivityUnavailable ∧
    mN.element_connectivity
      = .ok (_compute_connectivity_from_vertices mN,
          { mN with _element_connectivity :=
              ConnCache.computed (_compute_connectivity_from_vertices mN) }) ∧
    m2.element_connectivity = .ok (c, m2) := by
  have hcU : mU._element_connectivity = ConnCache.unavailable :=
    make_cache v gs ConnArg.unavailable fa mU hU
  have hcN : mN._element_connectivity = ConnCache.uncomputed :=
    make_cache v gs ConnArg.deduce fa mN hN
  refine ⟨?_, ?_, ?_⟩
  · rw [Mesh.element_connectivity, hcU]
  · rw [Mesh.element_connectivity, hcN]
  · rw [Mesh.element_connectivity] at hacc
    cases hm : m._element_connectivity with
    | unavailable => rw [hm] at hacc; cases hacc
    | uncomputed =>
        rw [hm] at hacc
        obtain ⟨h1, h2⟩ := Prod.mk.injEq .. ▸ (Except.ok.inj hacc)
        rw [Mesh.element_connectivity, ← h2, h1]
    | computed c0 =>
        rw [hm] at hacc
        obtain ⟨h1, h2⟩ := Prod.mk.injEq .. ▸ (Except.ok.inj hacc)
        rw [Mesh.element_connectivity, ← h2, hm, h1]

/-- An empty mesh with connectivity marked unavailable. -/
def emptyMeshU : Mesh := { _element_connectivity := ConnCache.unavailable }

/-- An empty mesh with connectivity left to be deduced. -/
def emptyMeshN : Mesh := {}

/-- An empty mesh with an already-computed (empty) connectivity record. -/
def emptyMeshC : Mesh :=
  { _element_connectivity := ConnCache.computed ([] : ElementConnectivity) }

/-- Witness for C7 on concrete empty meshes. -/
theorem element_connectivity_access_witness :
    emptyMeshU.element_connectivity
      = .error MeshError.ConnectivityUnavailable ∧
    emptyMeshN.element_connectivity
      = .ok (_compute_connectivity_from_vertices emptyMeshN,
          { emptyMeshN with
            _element_connectivity := ConnCache.computed (_compute_connectivity_from_vertices emptyMeshN) }) ∧
    emptyMeshC.element_connectivity
      = .ok (([] : ElementConnectivity), emptyMeshC) :=
  element_connectivity_access [] [] [] emptyMeshU emptyMeshN emptyMeshC
    emptyMeshC [] rfl rfl rfl

/-- Claim C8: `join_mesh` on a group whose `element_nr_base` is already
assigned fails with an error rather than reassigning, and the
`Mesh.__init__` stamping loop assigns each group an `element_nr_base` equal
to the running sum of the preceding groups' element counts (first group 0)
and a `node_nr_base` equal to the running sum of preceding groups' node
counts, exactly once per group. -/
theorem join_offsets_assigned_once
    (g : MeshElementGroup) (b e n : ℕ) (hb : g.element_nr_base = some b)
    (gs : List MeshElementGroup)
    (hgs : ∀ g2 ∈ gs, g2.element_nr_base = none) :
    g.join_mesh e n
      = .error "this element group has already joined a mesh, cannot join another" ∧
    ∃ gs2, joinAll gs 0 0 = .ok gs2 ∧ gs2.length = gs.length ∧
      ∀ i < gs.length,
        (gs2.getD i default).element_nr_base
          = some (((gs.take i).map (·.nelements)).sum) ∧
        (gs2.getD i default).node_nr_base
          = some (((gs.take i).map (·.nnodes)).sum) := by
  constructor
  · simp [MeshElementGroup.join_mesh, hb]
  · obtain ⟨gs2, hok, hlen, hp⟩ := joinAll_stamps gs hgs 0 0
    refine ⟨gs2, hok, hlen, fun i hi => ?_⟩
    obtain ⟨h1, h2⟩ := hp i hi
    exact ⟨by simpa using h1, by simpa using h2⟩

/-- An unstamped two-segment element group (the unbound version of
`segMesh`'s group). -/
def segGroupFresh : MeshElementGroup :=
  { vertex_indices := [[0, 1], [1, 2]], unit_nodes := [[-1, 1]] }

/-- Witness for C8: a stamped copy of `segGroupFresh` cannot re-join, and
stamping two fresh groups assigns prefix-sum offsets. -/
theorem join_offsets_assigned_once_witness :
    (stampGroup segGroupFresh 0 0).join_mesh 5 7
      = .error "this element group has already joined a mesh, cannot join another" ∧
    ∃ gs2, joinAll [segGroupFresh, segGroupFresh] 0 0 = .ok gs2 ∧
      gs2.length = [segGroupFresh, segGroupFresh].length ∧
      ∀ i < [segGroupFresh, segGroupFresh].length,
        (gs2.getD i default).element_nr_base
          = some ((([segGroupFresh, segGroupFresh].take i).map
              (·.nelements)).sum) ∧
        (gs2.getD i default).node_nr_base
          = some ((([segGroupFresh, segGroupFresh].take i).map
              (·.nnodes)).sum) :=
  join_offsets_assigned_once (stampGroup segGroupFresh 0 0) 0 5 7 rfl
    [segGroupFresh, segGroupFresh]
    (by intro g2 hg2; fin_cases hg2 <;> rfl)

/-- Claim C9: `MeshElementGroup.copy` resets `element_nr_base` and
`node_nr_base` to `None` whenever those keys are not explicitly passed,
even on a group that has them assigned; consequently a copy of an
already-joined group is unbound again and `join_mesh` on it succeeds,
returning a freshly stamped group (the receiver itself is never mutated:
the embedding is functional and `join_mesh` only builds a copy). -/
theorem copy_unbinds_group (g : MeshElementGroup) (kw : GroupCopyKwargs)
    (h1 : kw.element_nr_base = none) (h2 : kw.node_nr_base = none)
    (e n : ℕ) :
    (g.copy kw).element_nr_base = none ∧
    (g.copy kw).node_nr_base = none ∧
    (g.copy kw).join_mesh e n = .ok (stampGroup (g.copy kw) e n) ∧
    (stampGroup (g.copy kw) e n).element_nr_base = some e ∧
    (stampGroup (g.copy kw) e n).node_nr_base = some n := by
  have hc1 : (g.copy kw).element_nr_base = none := by
    simp [MeshElementGroup.copy, recordCopy, h1, h2]
  have hc2 : (g.copy kw).node_nr_base = none := by
    simp [MeshElementGroup.copy, recordCopy, h1, h2]
  exact ⟨hc1, hc2, join_mesh_ok _ hc1 e n, rfl, rfl⟩

/-- Witness for C9: copying the already-stamped `segMesh` group with no
kwargs unbinds it and lets it join again at offsets (7, 9). -/
theorem copy_unbinds_group_witness :
    ((stampGroup segGroupFresh 0 0).copy {}).element_nr_base = none ∧
    ((stampGroup segGroupFresh 0 0).copy {}).node_nr_base = none ∧
    ((stampGroup segGroupFresh 0 0).copy {}).join_mesh 7 9
      = .ok (stampGroup ((stampGroup segGroupFresh 0 0).copy {}) 7 9) ∧
    (stampGroup ((stampGroup segGroupFresh 0 0).copy {}) 7 9).element_nr_base
      = some 7 ∧
    (stampGroup ((stampGroup segGroupFresh 0 0).copy {}) 7 9).node_nr_base
      = some 9 :=
  copy_unbinds_group (stampGroup segGroupFresh 0 0) {} rfl rfl 7 9

/-- Claim C10: on the same valid mesh data, a `Mesh` constructed with an
explicitly supplied `(neighbors_starts, neighbors)` tuple stores an
`ElementConnectivity` record whose fields are named
`element_neighbors_starts` / `element_neighbors` (it has no
`neighbors_starts` / `neighbors` fields), while the lazily deduced
connectivity record uses `neighbors_starts` / `neighbors`; the two
construction paths therefore yield structurally different connectivity
records even for identical adjacency data. -/
theorem connectivity_record_field_names :
    ∃ (mE mD mD2 : Mesh) (recE recC : ElementConnectivity),
      Mesh.make [[0], [1], [2]] [segGroupFresh]
          (ConnArg.supplied (neighborsStarts segMesh) (neighborsFlat segMesh))
          [] = .ok mE ∧
      mE._element_connectivity = ConnCache.computed recE ∧
      Mesh.make [[0], [1], [2]] [segGroupFresh] ConnArg.deduce [] = .ok mD ∧
      mD.element_connectivity = .ok (recC, mD2) ∧
      connField recE "neighbors_starts" = none ∧
      connField recE "neighbors" = none ∧
      connField recE "element_neighbors_starts"
        = some (neighborsStarts segMesh) ∧
      connField recC "neighbors_starts" = some (neighborsStarts segMesh) ∧
      connField recC "neighbors" = some (neighborsFlat segMesh) ∧
      recE ≠ recC := by
  refine ⟨_, _, _,
    [("element_neighbors_starts", neighborsStarts segMesh),
     ("element_neighbors", neighborsFlat segMesh)],
    _compute_connectivity_from_vertices segMesh,
    rfl, rfl, rfl, rfl, rfl, rfl, rfl, rfl, rfl, ?_⟩
  intro h
  have h2 : connField
      [("element_neighbors_starts", neighborsStarts segMesh),
       ("element_neighbors", neighborsFlat segMesh)] "neighbors_starts"
      = connField (_compute_connectivity_from_vertices segMesh)
          "neighbors_starts" := by rw [h]
  rw [show connField
      [("element_neighbors_starts", neighborsStarts segMesh),
       ("element_neighbors", neighborsFlat segMesh)] "neighbors_starts"
      = none from rfl,
    show connField (_compute_connectivity_from_vertices segMesh)
      "neighbors_starts" = some (neighborsStarts segMesh) from rfl] at h2
  cases h2

/-! ## Claims C5 and C6: face-vertex collection and vertex cropping

`face.py` reads `mesh.facial_adjacency_groups` and
`mesh.boundary_tag_bit(boundary_tag)`; neither is defined in the sources
(the spec lists the facial adjacency table as an external input whose
boundary entries carry negative neighbor values with bits encoding the
applicable boundary tags).  A boundary tag is therefore represented below
directly by its bitmask `btag_bit = mesh.boundary_tag_bit(boundary_tag)`,
the only form in which the sources consume it. -/

/-- `bdry_grp.elements[face_relevant_flags]` (face.py lines 109-110 and
115): element ids of the rows whose negated neighbor value has the tag bit
set. -/
def flaggedElements (bg : FacialAdjacencyGroup) (btag_bit : ℕ) : List ℕ :=
  (bg.elements.zip bg.neighbors).filterMap
    (fun p => if ((-p.2).toNat &&& btag_bit) ≠ 0 then some p.1 else none)

/-- The flat array `grp.vertex_indices[bdry_grp.elements[face_relevant_flags]]
[:, fvi].flat` accumulated over `iface, fvi in enumerate(grp.face_vertex_indices())`
(face.py lines 112-117).  Note the source selects the same flagged element
rows for every `iface`; `element_faces` is not consulted here. -/
def groupFaceVertexList (grp : MeshElementGroup) (flagged : List ℕ) : List ℕ :=
  ((List.range (numFaces grp.dim)).map (fun iface =>
    (flagged.map (fun el =>
      (loc_face_vertices grp.dim iface).map
        (fun lv => (grp.vertex_indices.getD el []).getD lv 0))).flatten)).flatten

/-- The set `bdry_vertex_vol_nrs` built by `_get_face_vertices`
(face.py lines 93-117); a Python set, modelled as a `Finset`. -/
def bdryVertexSet (m : Mesh) (btag_bit : ℕ) : Finset ℕ :=
  m.facial_adjacency_groups.foldl (fun s fagrp_map =>
    match List.lookup none fagrp_map with
    | none => s
    | some bdry_grp =>
        s ∪ (groupFaceVertexList (m.groups.getD bdry_grp.igroup default)
          (flaggedElements bdry_grp btag_bit)).toFinset) ∅

/-- `_get_face_vertices(mesh, boundary_tag)` (face.py lines 91-126):
`np.array(sorted(bdry_vertex_vol_nrs))` for a tagged boundary,
`np.arange(mesh.nvertices)` in interior-face mode. -/
def _get_face_vertices (m : Mesh) (boundary_tag : Option ℕ) : List ℕ :=
  match boundary_tag with
  | some btag_bit => (bdryVertexSet m btag_bit).sort (· ≤ ·)
  | none => List.range m.nvertices

/-- The property claim C5 ascribes to a collected vertex, stated from the
claim's words for comparison with the source computation: `v` lies on an
(element, local face) pair whose facial-adjacency boundary entry has the
tag's bit set — i.e. some flagged row `r` whose element's face
`element_faces[r]` contains `v` among its face vertices. -/
def liesOnTaggedFace (m : Mesh) (btag_bit v : ℕ) : Bool :=
  m.facial_adjacency_groups.any (fun fagrp_map =>
    match List.lookup none fagrp_map with
    | none => false
    | some bg =>
        (List.range bg.elements.length).any (fun r =>
          (((-(bg.neighbors.getD r 0)).toNat &&& btag_bit) != 0) &&
          ((loc_face_vertices (m.groups.getD bg.igroup default).dim
              (bg.element_faces.getD r 0)).map
            (fun lv => ((m.groups.getD bg.igroup default).vertex_indices.getD
                (bg.elements.getD r 0) []).getD lv 0)).contains v))

/-- The boundary-keyed facial adjacency entry of the one-triangle witness
mesh: one flagged row, (element 0, face 0), boundary-sentinel neighbor -1
(tag bit 1 set). -/
def triBdryGrp : FacialAdjacencyGroup :=
  { igroup := 0, elements := [0], element_faces := [0], neighbors := [-1] }

/-- A one-triangle mesh whose facial adjacency flags the single
(element 0, face 0) pair — face 0 has vertices 0 and 1; vertex 2 lies on no
flagged face. -/
def triMesh : Mesh where
  vertices := [[0, 0], [1, 0], [0, 1]]
  groups := [{ vertex_indices := [[0, 1, 2]],
               unit_nodes := [[0], [0]],
               element_nr_base := some 0,
               node_nr_base := some 0 }]
  facial_adjacency_groups := [[(none, triBdryGrp)]]

/-- Counterexample to C5 as stated: on `triMesh` with tag bit 1, the
collector returns vertex 2 although vertex 2 lies on no tag-flagged
(element, local face) pair — the source gathers every face's vertex columns
of every flagged element, ignoring `element_faces`. -/
theorem get_face_vertices_counterexample :
    2 ∈ _get_face_vertices triMesh (some 1) ∧
    liesOnTaggedFace triMesh 1 2 = false := by
  constructor
  · show 2 ∈ (bdryVertexSet triMesh 1).sort (· ≤ ·)
    rw [Finset.mem_sort]
    decide
  · decide

theorem groupFaceVertexList_mem (grp : MeshElementGroup) (flagged : List ℕ)
    (v : ℕ) :
    v ∈ groupFaceVertexList grp flagged
      ↔ ∃ iface < numFaces grp.dim, ∃ el ∈ flagged,
          v ∈ (loc_face_vertices grp.dim iface).map
            (fun lv => (grp.vertex_indices.getD el []).getD lv 0) := by
  unfold groupFaceVertexList
  constructor
  · intro h
    obtain ⟨l1, hl1, hv1⟩ := List.mem_flatten.mp h
    obtain ⟨iface, hiface, rfl⟩ := List.mem_map.mp hl1
    obtain ⟨l2, hl2, hv2⟩ := List.mem_flatten.mp hv1
    obtain ⟨el, hel, rfl⟩ := List.mem_map.mp hl2
    exact ⟨iface, List.mem_range.mp hiface, el, hel, hv2⟩
  · rintro ⟨iface, hiface, el, hel, hv⟩
    refine List.mem_flatten.mpr ⟨_, List.mem_map.mpr
      ⟨iface, List.mem_range.mpr hiface, rfl⟩, ?_⟩
    exact List.mem_flatten.mpr ⟨_, List.mem_map.mpr ⟨el, hel, rfl⟩, hv⟩

theorem bdryVertexSet_mem (m : Mesh) (btag_bit v : ℕ) :
    v ∈ bdryVertexSet m btag_bit
      ↔ ∃ fm ∈ m.facial_adjacency_groups, ∃ bg,
          List.lookup none fm = some bg ∧
          v ∈ groupFaceVertexList (m.groups.getD bg.igroup default)
              (flaggedElements bg btag_bit) := by
  have hgen : ∀ (l : List FagrpMap) (s0 : Finset ℕ),
      v ∈ l.foldl (fun s fagrp_map =>
          match List.lookup none fagrp_map with
          | none => s
          | some bdry_grp =>
              s ∪ (groupFaceVertexList (m.groups.getD bdry_grp.igroup default)
                (flaggedElements bdry_grp btag_bit)).toFinset) s0
        ↔ v ∈ s0 ∨ ∃ fm ∈ l, ∃ bg, List.lookup none fm = some bg ∧
            v ∈ groupFaceVertexList (m.groups.getD bg.igroup default)
                (flaggedElements bg btag_bit) := by
    intro l
    induction l with
    | nil => intro s0; simp
    | cons fm fms ih =>
        intro s0
        rw [List.foldl_cons, ih]
        cases hlk : List.lookup none fm with
        | none =>
            simp only [hlk]
            constructor
            · rintro (h | h)
              · exact Or.inl h
              · exact Or.inr (by
                  obtain ⟨fm2, hfm2, bg, hbg, hv⟩ := h
                  exact ⟨fm2, List.mem_cons_of_mem fm hfm2, bg, hbg, hv⟩)
            · rintro (h | ⟨fm2, hfm2, bg, hbg, hv⟩)
              · exact Or.inl h
              · rcases List.mem_cons.mp hfm2 with h2 | h2
                · subst h2; rw [hlk] at hbg; cases hbg
                · exact Or.inr ⟨fm2, h2, bg, hbg, hv⟩
        | some bg0 =>
            simp only [hlk, Finset.mem_union, List.mem_toFinset]
            constructor
            · rintro ((h | h) | h)
              · exact Or.inl h
              · exact Or.inr ⟨fm, List.mem_cons_self fm fms, bg0, hlk, h⟩
              · obtain ⟨fm2, hfm2, bg, hbg, hv⟩ := h
                exact Or.inr ⟨fm2, List.mem_cons_of_mem fm hfm2, bg, hbg, hv⟩
            · rintro (h | ⟨fm2, hfm2, bg, hbg, hv⟩)
              · exact Or.inl (Or.inl h)
              · rcases List.mem_cons.mp hfm2 with h2 | h2
                · subst h2
                  rw [hlk] at hbg
                  cases hbg
                  exact Or.inl (Or.inr hv)
                · exact Or.inr ⟨fm2, h2, bg, hbg, hv⟩
  unfold bdryVertexSet
  rw [hgen]
  simp

/-- Claim C5 (amended): for a tagged boundary, `_get_face_vertices` returns
a strictly increasing (sorted, duplicate-free) array containing exactly the
global vertex indices that occur at some local face's vertex positions of
some element having at least one boundary entry with the tag's bit set
(i.e. all vertices of tag-flagged elements — the source gathers every
face's vertex columns of every flagged element, not only the flagged
face's); with `boundary_tag = None` it returns every vertex index `0`
through `nvertices - 1`. -/
theorem get_face_vertices_spec (m : Mesh) (btag_bit : ℕ) :
    (_get_face_vertices m (some btag_bit)).Sorted (· < ·) ∧
    (_get_face_vertices m (some btag_bit)).Nodup ∧
    (∀ v, v ∈ _get_face_vertices m (some btag_bit)
      ↔ ∃ fm ∈ m.facial_adjacency_groups, ∃ bg,
          List.lookup none fm = some bg ∧
          ∃ iface < numFaces (m.groups.getD bg.igroup default).dim,
          ∃ el ∈ flaggedElements bg btag_bit,
            v ∈ (loc_face_vertices (m.groups.getD bg.igroup default).dim
                iface).map
              (fun lv => ((m.groups.getD bg.igroup default).vertex_indices.getD
                  el []).getD lv 0)) ∧
    _get_face_vertices m none = List.range m.nvertices := by
  refine ⟨Finset.sort_sorted_lt _, Finset.sort_nodup _ _, ?_, rfl⟩
  intro v
  show v ∈ (bdryVertexSet m btag_bit).sort (· ≤ ·) ↔ _
  rw [Finset.mem_sort, bdryVertexSet_mem]
  constructor
  · rintro ⟨fm, hfm, bg, hbg, hv⟩
    exact ⟨fm, hfm, bg, hbg, (groupFaceVertexList_mem _ _ _).mp hv⟩
  · rintro ⟨fm, hfm, bg, hbg, hv⟩
    exact ⟨fm, hfm, bg, hbg, (groupFaceVertexList_mem _ _ _).mpr hv⟩

/-- `vol_to_bdry_vertices` (face.py lines 148-153): an array of size
`nvertices` filled with `-1`, then assigned
`vol_to_bdry_vertices[bdry_vertex_vol_nrs] = np.arange(len(bdry_vertex_vol_nrs))`.
The kept list is duplicate-free, so the entry at a kept vertex is its
position in the kept list; written pointwise. -/
def vol_to_bdry_vertices (m : Mesh) (boundary_tag : Option ℕ) : ℕ → ℤ :=
  fun v =>
    let kept := _get_face_vertices m boundary_tag
    if v ∈ kept then (kept.indexOf v : ℤ) else -1

/-- `bdry_vertices = discr.mesh.vertices[:, bdry_vertex_vol_nrs]`
(face.py line 155): the kept vertex columns. -/
def bdry_vertices (m : Mesh) (boundary_tag : Option ℕ) : List (List ℚ) :=
  (_get_face_vertices m boundary_tag).map (fun v => m.vertices.getD v [])

/-- `group_boundary_faces` for a tagged boundary (face.py lines 176-187):
the flagged `(element, local face)` pairs of one group's boundary entry. -/
def group_boundary_faces (fagrp_map : FagrpMap) (btag_bit : ℕ) :
    List (ℕ × ℕ) :=
  match List.lookup none fagrp_map with
  | none => []
  | some bdry_grp =>
      (bdry_grp.elements.zip
        (bdry_grp.neighbors.zip bdry_grp.element_faces)).filterMap
        (fun p => if ((-p.2.1).toNat &&& btag_bit) ≠ 0
          then some (p.1, p.2.2) else none)

/-- `batch_boundary_el_numbers_in_grp` (face.py lines 226-231): the
elements whose flagged face is `face_id`. -/
def batchEls (gbf : List (ℕ × ℕ)) (face_id : ℕ) : List ℕ :=
  gbf.filterMap (fun q => if q.2 = face_id then some q.1 else none)

/-- The derived group's `vertex_indices` as assembled by
`make_face_restriction` (face.py lines 203-205, 233-235 and 266-269): the
preallocated array is written batch by batch at the consecutive row blocks
`new_el_numbers` (`batch_base` accumulates the batch sizes), each row being
`vol_to_bdry_vertices[mgrp.vertex_indices[el][loc_face_vertices]]`. -/
def derivedVertexIndices (m : Mesh) (btag_bit : ℕ) (igrp : ℕ) :
    List (List ℤ) :=
  let mgrp := m.groups.getD igrp default
  let gbf := group_boundary_faces
    (m.facial_adjacency_groups.getD igrp []) btag_bit
  ((List.range (numFaces mgrp.dim)).map (fun face_id =>
    (batchEls gbf face_id).map (fun el =>
      (loc_face_vertices mgrp.dim face_id).map (fun lv =>
        vol_to_bdry_vertices m (some btag_bit)
          ((mgrp.vertex_indices.getD el []).getD lv 0))))).flatten

theorem getD_mem_of_lt {l : List ℕ} {j : ℕ} (h : j < l.length) (d : ℕ) :
    l.getD j d ∈ l := by
  rw [List.getD_eq_getElem _ _ h]
  exact List.getElem_mem h

theorem nodup_indexOf_getD : ∀ (l : List ℕ), l.Nodup → ∀ j < l.length,
    l.indexOf (l.getD j 0) = j := by
  intro l
  induction l with
  | nil => intro _ j hj; simp at hj
  | cons a as ih =>
      intro hnd j hj
      match j with
      | 0 => simp
      | j + 1 =>
          rw [List.getD_cons_succ]
          have hj2 : j < as.length := by simpa using hj
          have hmem : as.getD j 0 ∈ as := getD_mem_of_lt hj2 0
          have hne : a ≠ as.getD j 0 := by
            intro he
            exact (List.nodup_cons.mp hnd).1 (he ▸ hmem)
          rw [List.indexOf_cons_ne as hne,
            ih (List.nodup_cons.mp hnd).2 j hj2]

/-- An element listed in `group_boundary_faces` is among the
`flaggedElements` of the boundary entry. -/
theorem group_boundary_faces_flagged (fagrp_map : FagrpMap) (btag_bit : ℕ)
    (el f : ℕ) (h : (el, f) ∈ group_boundary_faces fagrp_map btag_bit) :
    ∃ bg, List.lookup none fagrp_map = some bg ∧
      el ∈ flaggedElements bg btag_bit := by
  unfold group_boundary_faces at h
  cases hlk : List.lookup none fagrp_map with
  | none => rw [hlk] at h; cases h
  | some bg =>
      rw [hlk] at h
      refine ⟨bg, rfl, ?_⟩
      obtain ⟨p, hp, hpval⟩ := List.mem_filterMap.mp h
      by_cases hflag : ((-p.2.1).toNat &&& btag_bit) ≠ 0
      · rw [if_pos hflag] at hpval
        obtain ⟨he, _⟩ := Prod.mk.injEq .. ▸ (Option.some.inj hpval)
        obtain ⟨r, hr, hpr⟩ := List.mem_iff_getElem.mp hp
        have hr1 : r < bg.elements.length := by
          rw [List.length_zip] at hr
          omega
        have hr2 : r < bg.neighbors.length := by
          rw [List.length_zip, List.length_zip] at hr
          simp only [lt_min_iff] at hr
          exact hr.2.1
        refine List.mem_filterMap.mpr
          ⟨(bg.elements[r], bg.neighbors[r]), ?_, ?_⟩
        · rw [← List.getElem_zip (h := by rw [List.length_zip]; omega)]
          exact List.getElem_mem _
        · rw [List.getElem_zip] at hpr
          have hpe : p.1 = bg.elements[r] := by rw [← hpr]
          have hpn : p.2.1 = bg.neighbors[r] := by
            rw [← hpr]
            simp [List.getElem_zip]
          rw [if_pos (by rw [← hpn]; exact hflag)]
          rw [← hpe, he]
      · rw [if_neg hflag] at hpval
        cases hpval

/-- Claim C6 (amended): with `k` the number of vertices gathered by
`_get_face_vertices` for the tagged boundary (all vertices of tag-flagged
elements, per the source's collector), the derived mesh's vertex array has
exactly `k` columns, the global-to-restricted renumbering assigns the
consecutive new indices `0..k-1` to the kept vertices in order, and every
entry of every derived group's `vertex_indices` lies in `[0, k)` (the
renumbering is only ever read at kept positions).  The hypothesis ties each
facial adjacency table to its group index, as `make_face_restriction`'s
`zip` does. -/
theorem face_restriction_vertex_crop (m : Mesh) (btag_bit : ℕ)
    (halign : ∀ i bg, List.lookup none (m.facial_adjacency_groups.getD i [])
      = some bg → bg.igroup = i) :
    (bdry_vertices m (some btag_bit)).length
      = (_get_face_vertices m (some btag_bit)).length ∧
    (∀ j < (_get_face_vertices m (some btag_bit)).length,
      vol_to_bdry_vertices m (some btag_bit)
        ((_get_face_vertices m (some btag_bit)).getD j 0) = (j : ℤ)) ∧
    (∀ igrp row x, row ∈ derivedVertexIndices m btag_bit igrp → x ∈ row →
      0 ≤ x ∧ x < ((_get_face_vertices m (some btag_bit)).length : ℤ)) := by
  have hnodup : (_get_face_vertices m (some btag_bit)).Nodup :=
    Finset.sort_nodup _ _
  refine ⟨List.length_map _ _, ?_, ?_⟩
  · intro j hj
    have hmem : (_get_face_vertices m (some btag_bit)).getD j 0
        ∈ _get_face_vertices m (some btag_bit) := getD_mem_of_lt hj 0
    show (if _ ∈ _ then _ else _) = (j : ℤ)
    rw [if_pos hmem, nodup_indexOf_getD _ hnodup j hj]
  · intro igrp row x hrow hx
    obtain ⟨l1, hl1, hrow1⟩ := List.mem_flatten.mp hrow
    obtain ⟨face_id, hface, rfl⟩ := List.mem_map.mp hl1
    obtain ⟨el, hel, rfl⟩ := List.mem_map.mp hrow1
    obtain ⟨lv, hlv, rfl⟩ := List.mem_map.mp hx
    obtain ⟨q, hq, hqv⟩ := List.mem_filterMap.mp hel
    by_cases hqf : q.2 = face_id
    · rw [if_pos hqf] at hqv
      have hq1 : q.1 = el := Option.some.inj hqv
      have hpair : (el, face_id) ∈ group_boundary_faces
          (m.facial_adjacency_groups.getD igrp []) btag_bit := by
        rw [← hq1, ← hqf]
        exact hq
      obtain ⟨bg, hlk, hflag⟩ :=
        group_boundary_faces_flagged _ btag_bit el face_id hpair
      have higrp : bg.igroup = igrp := halign igrp bg hlk
      have hlt : igrp < m.facial_adjacency_groups.length := by
        by_contra hge
        rw [List.getD_eq_default _ _ (by omega)] at hlk
        cases hlk
      have hfm : m.facial_adjacency_groups.getD igrp []
          ∈ m.facial_adjacency_groups := by
        rw [List.getD_eq_getElem _ _ hlt]
        exact List.getElem_mem hlt
      have hglob : (((m.groups.getD igrp default).vertex_indices.getD el
          []).getD lv 0) ∈ groupFaceVertexList
            (m.groups.getD bg.igroup default)
            (flaggedElements bg btag_bit) := by
        rw [higrp]
        refine (groupFaceVertexList_mem _ _ _).mpr
          ⟨face_id, List.mem_range.mp hface, el, hflag, ?_⟩
        exact List.mem_map.mpr ⟨lv, hlv, rfl⟩
      have hkept : (((m.groups.getD igrp default).vertex_indices.getD el
          []).getD lv 0) ∈ _get_face_vertices m (some btag_bit) := by
        show _ ∈ (bdryVertexSet m btag_bit).sort (· ≤ ·)
        rw [Finset.mem_sort, bdryVertexSet_mem]
        exact ⟨_, hfm, bg, hlk, hglob⟩
      constructor
      · show (0 : ℤ) ≤ (if _ ∈ _ then _ else _)
        rw [if_pos hkept]
        exact Int.ofNat_nonneg _
      · show (if _ ∈ _ then _ else _) < _
        rw [if_pos hkept]
        exact_mod_cast List.indexOf_lt_length.mpr hkept
    · rw [if_neg hqf] at hqv
      cases hqv

/-- Counterexample to C6 as stated: on `triMesh` the tagged boundary
(face 0 of the one triangle) touches only 2 of the 3 volume vertices, yet
the derived mesh's vertex array has 3 rows — the collector keeps every
vertex of the flagged element, not only the vertices on the flagged
face. -/
theorem face_restriction_vertex_crop_counterexample :
    (bdry_vertices triMesh (some 1)).length = 3 ∧
    ((List.range triMesh.nvertices).filter
      (fun v => liesOnTaggedFace triMesh 1 v)).length = 2 := by
  constructor
  · show ((_get_face_vertices triMesh (some 1)).map _).length = 3
    rw [List.length_map]
    show ((bdryVertexSet triMesh 1).sort (· ≤ ·)).length = 3
    rw [Finset.length_sort]
    decide
  · decide

theorem triMesh_align : ∀ i bg,
    List.lookup none (triMesh.facial_adjacency_groups.getD i []) = some bg →
    bg.igroup = i := by
  intro i bg h
  match i with
  | 0 =>
      have h0 : triMesh.facial_adjacency_groups.getD 0 []
          = [(none, triBdryGrp)] := rfl
      rw [h0] at h
      have h1 : (some triBdryGrp : Option FacialAdjacencyGroup)
          = some bg := h
      rw [← Option.some.inj h1]
      rfl
  | i + 1 =>
      rw [List.getD_eq_default _ _ (by show 1 ≤ i + 1; omega)] at h
      cases h

/-- Witness for C6 on `triMesh` with tag bit 1, the alignment hypothesis
discharged. -/
theorem face_restriction_vertex_crop_witness :
    (∀ i bg,
      List.lookup none (triMesh.facial_adjacency_groups.getD i [])
        = some bg → bg.igroup = i) ∧
    ((bdry_vertices triMesh (some 1)).length
      = (_get_face_vertices triMesh (some 1)).length ∧
    (∀ j < (_get_face_vertices triMesh (some 1)).length,
      vol_to_bdry_vertices triMesh (some 1)
        ((_get_face_vertices triMesh (some 1)).getD j 0) = (j : ℤ)) ∧
    (∀ igrp row x, row ∈ derivedVertexIndices triMesh 1 igrp → x ∈ row →
      0 ≤ x ∧ x < ((_get_face_vertices triMesh (some 1)).length : ℤ))) :=
  ⟨triMesh_align, face_restriction_vertex_crop triMesh 1 triMesh_align⟩
